import Mathlib

/-!
Shallow embedding of the repo-explorer core (src/parser/src/git.rs): the tree
and commit parsers, the delta resolver `apply_delta`, the pack decoder
`parse_pack`, the change-count walker (`ChangeCounter::record_changes`,
`walk_commit`) and the output builder (`ChangeCounter::build_tree_node`),
together with theorems settling the frozen claims about them.

Bytes are modelled as `Nat` (values < 256 in every real input); byte buffers
as `List Nat`.  Rust `HashMap`s are modelled as association lists with
insert-replaces-key semantics; `panic!`/`unwrap`/`assert` failures are
modelled as `none` (or a `PackError`).  The SHA-1 primitive and the zlib
inflater are external dependencies of the source whose contracts are assumed;
they enter the model as function parameters (`sha1`, `inflate`).
-/

set_option linter.unusedVariables false

deriving instance DecidableEq for Except

/-- Lookup in an association list; models `HashMap::get`. -/
def alistGet {α β : Type} [DecidableEq α] (m : List (α × β)) (k : α) : Option β :=
  (m.find? (fun p => decide (p.1 = k))).map (fun p => p.2)

/-- Insert in an association list, replacing any existing binding for the key;
models `HashMap::insert`. -/
def alistInsert {α β : Type} [DecidableEq α] (k : α) (v : β) (m : List (α × β)) :
    List (α × β) :=
  (k, v) :: m.filter (fun p => !decide (p.1 = k))

/-- Big-endian 32-bit read; models `u32::from_be_bytes`. -/
def be32 (l : List Nat) : Nat :=
  match l with
  | [a, b, c, d] => (a % 256) * 16777216 + (b % 256) * 65536 + (c % 256) * 256 + d % 256
  | _ => 0

/-- Whether a byte is a UTF-8 continuation byte (10xxxxxx). -/
def isCont (b : Nat) : Bool := 0x80 ≤ b && b ≤ 0xBF

/-- Decode one UTF-8 scalar value off the front of a byte sequence, rejecting
what `str::from_utf8` rejects (stray continuation bytes, overlong forms,
surrogates, values above U+10FFFF); returns the scalar and remaining bytes. -/
def decodeOne : List Nat → Option (Char × List Nat)
  | [] => none
  | b :: rest =>
    if b < 0x80 then some (Char.ofNat b, rest)
    else if 0xC2 ≤ b && b ≤ 0xDF then
      match rest with
      | c1 :: rest2 =>
        if isCont c1 then some (Char.ofNat ((b - 0xC0) * 64 + (c1 - 0x80)), rest2) else none
      | [] => none
    else if 0xE0 ≤ b && b ≤ 0xEF then
      match rest with
      | c1 :: c2 :: rest2 =>
        let v := (b - 0xE0) * 4096 + (c1 - 0x80) * 64 + (c2 - 0x80)
        if isCont c1 && isCont c2 && decide (0x800 ≤ v) && !decide (0xD800 ≤ v ∧ v ≤ 0xDFFF) then
          some (Char.ofNat v, rest2)
        else none
      | _ => none
    else if 0xF0 ≤ b && b ≤ 0xF4 then
      match rest with
      | c1 :: c2 :: c3 :: rest2 =>
        let v := (b - 0xF0) * 262144 + (c1 - 0x80) * 4096 + (c2 - 0x80) * 64 + (c3 - 0x80)
        if isCont c1 && isCont c2 && isCont c3 && decide (0x10000 ≤ v) && decide (v ≤ 0x10FFFF) then
          some (Char.ofNat v, rest2)
        else none
      | _ => none
    else none

/-- Iterated `decodeOne`.  `fuel` only bounds the iteration count: each scalar
consumes at least one byte, so the `fuel` that `utf8Decode` supplies is never
exhausted. -/
def utf8DecodeGo : Nat → List Nat → Option (List Char)
  | _, [] => some []
  | 0, _ :: _ => none
  | fuel + 1, b :: rest =>
    match decodeOne (b :: rest) with
    | none => none
    | some (c, rem) =>
      match utf8DecodeGo fuel rem with
      | none => none
      | some cs => some (c :: cs)

/-- Decode a UTF-8 byte sequence into its scalar values; models
`str::from_utf8` followed by reading the string's chars. -/
def utf8Decode (l : List Nat) : Option (List Char) := utf8DecodeGo l.length l

/-- UTF-8 encoding of a single scalar value; models `str::as_bytes` per char. -/
def utf8EncodeChar (c : Char) : List Nat :=
  let n := c.toNat
  if n < 0x80 then [n]
  else if n < 0x800 then [0xC0 + n / 64, 0x80 + n % 64]
  else if n < 0x10000 then [0xE0 + n / 4096, 0x80 + n / 64 % 64, 0x80 + n % 64]
  else [0xF0 + n / 262144, 0x80 + n / 4096 % 64, 0x80 + n / 64 % 64, 0x80 + n % 64]

/-- The code points Rust's `char::is_whitespace` (Unicode `White_Space`)
accepts. -/
def isRustWs (c : Char) : Bool :=
  c.toNat ∈ ([0x09, 0x0A, 0x0B, 0x0C, 0x0D, 0x20, 0x85, 0xA0, 0x1680,
    0x2000, 0x2001, 0x2002, 0x2003, 0x2004, 0x2005, 0x2006, 0x2007, 0x2008,
    0x2009, 0x200A, 0x2028, 0x2029, 0x202F, 0x205F, 0x3000] : List Nat)

/-- Accumulating worker for `splitWhitespace`; `acc` holds the current token
reversed. -/
def splitWsAux : List Char → List Char → List (List Char)
  | [], acc => if acc = [] then [] else [acc.reverse]
  | c :: rest, acc =>
    if isRustWs c then
      if acc = [] then splitWsAux rest []
      else acc.reverse :: splitWsAux rest []
    else splitWsAux rest (c :: acc)

/-- Models Rust's `str::split_whitespace`: maximal runs of non-whitespace
characters, in order. -/
def splitWhitespace (l : List Char) : List (List Char) := splitWsAux l []

/-- A git tree entry as stored by the source (`GitTreeEntry`). -/
structure GitTreeEntry where
  is_dir : Bool
  name : String
  sha : List Nat
deriving DecidableEq, Repr

/-- A parsed git tree (`GitTree`). -/
abbrev GitTree := List GitTreeEntry

/-- Models `parse_entry`: decode the mode-and-name bytes as UTF-8, split on
whitespace, take the first token as the mode and the second as the name; the
entry is a directory iff the mode's first byte is not ASCII `1`. -/
def parse_entry (data : List Nat) (sha : List Nat) : Option GitTreeEntry :=
  match utf8Decode data with
  | none => none
  | some chars =>
    match splitWhitespace chars with
    | mode :: nm :: _ =>
      match mode with
      | [] => none
      | mc :: _ =>
        match utf8EncodeChar mc with
        | [] => none
        | fb :: _ => some ⟨!decide (fb = 49), String.mk nm, sha⟩
    | _ => none

/-- Split a byte list at its first NUL byte: `some (before, after)` when a NUL
exists, `none` otherwise. -/
def splitAtNul : List Nat → Option (List Nat × List Nat)
  | [] => none
  | b :: rest =>
    if b = 0 then some ([], rest)
    else (splitAtNul rest).map (fun p => (b :: p.1, p.2))

/-- Models the scanning loop of `parse_tree`: find the next NUL, parse the
bytes before it as mode-and-name and the 20 bytes after it as the child OID,
then continue after the OID.  Trailing bytes with no NUL are ignored, as in
the source; running off the end of the buffer (fewer than 20 bytes after a
NUL) models the source's slice-index panic as `none`.  `fuel` only bounds the
iteration count: every entry consumes at least 21 bytes, so the `fuel` that
`parse_tree` supplies is never exhausted. -/
def parseTreeGo : Nat → List Nat → Option (List GitTreeEntry)
  | 0, _ => none
  | fuel + 1, data =>
    match splitAtNul data with
    | none => some []
    | some (pre, post) =>
      if post.length < 20 then none
      else
        match parse_entry pre (post.take 20) with
        | none => none
        | some e =>
          match parseTreeGo fuel (post.drop 20) with
          | none => none
          | some rest => some (e :: rest)

/-- Models `parse_tree`. -/
def parse_tree (data : List Nat) : Option (List GitTreeEntry) :=
  parseTreeGo (data.length + 1) data

/-- A parsed commit (`GitCommit`): its tree OID and parent OIDs in order. -/
structure GitCommit where
  tree_sha : List Nat
  parents : List (List Nat)
deriving DecidableEq, Repr

/-- The characters before the first occurrence of `"\n\n"`; models
`content.split("\n\n").nth(0)`. -/
def takeBefore2NL : List Char → List Char
  | [] => []
  | '\n' :: '\n' :: _ => []
  | c :: rest => c :: takeBefore2NL rest

/-- Split on newline characters; models `str::split("\n")` (always at least
one piece, empty pieces kept). -/
def splitOnNL : List Char → List (List Char)
  | [] => [[]]
  | '\n' :: rest => [] :: splitOnNL rest
  | c :: rest =>
    match splitOnNL rest with
    | l :: ls => (c :: l) :: ls
    | [] => [[c]]

/-- Models `str::splitn(2, ' ')` followed by two `unwrap`s: the part before the
first space and the part after it; `none` when the line has no space. -/
def splitn2Space : List Char → Option (List Char × List Char)
  | [] => none
  | ' ' :: rest => some ([], rest)
  | c :: rest => (splitn2Space rest).map (fun p => (c :: p.1, p.2))

/-- Value of one hexadecimal digit, lower or upper case. -/
def hexDigit (c : Char) : Option Nat :=
  if '0' ≤ c && c ≤ '9' then some (c.toNat - 48)
  else if 'a' ≤ c && c ≤ 'f' then some (c.toNat - 87)
  else if 'A' ≤ c && c ≤ 'F' then some (c.toNat - 55)
  else none

/-- Models `hex::decode(..).unwrap()`: pairs of hex digits to bytes, `none` on
odd length or a non-hex character. -/
def hexDecode : List Char → Option (List Nat)
  | [] => some []
  | [_] => none
  | c1 :: c2 :: rest =>
    match hexDigit c1, hexDigit c2, hexDecode rest with
    | some h, some l, some bs => some ((h * 16 + l) :: bs)
    | _, _, _ => none

/-- Folds the header lines of a commit, keeping the last `tree` value and the
`parent` values in order; models the header loop of `parse_commit`. -/
def commitFold : List (List Char) → Option (List Nat) → List (List Nat) → Option GitCommit
  | [], treeAcc, ps =>
    match treeAcc with
    | some t => some ⟨t, ps⟩
    | none => none
  | line :: rest, treeAcc, ps =>
    match splitn2Space line with
    | none => none
    | some (nm, value) =>
      if nm = "tree".toList then
        match hexDecode value with
        | none => none
        | some sha => commitFold rest (some sha) ps
      else if nm = "parent".toList then
        match hexDecode value with
        | none => none
        | some sha => commitFold rest treeAcc (ps ++ [sha])
      else commitFold rest treeAcc ps

/-- Models `parse_commit`: decode the payload as UTF-8, keep the part before
the first blank line, and fold its `<key> <value>` lines. -/
def parse_commit (data : List Nat) : Option GitCommit :=
  match utf8Decode data with
  | none => none
  | some content => commitFold (splitOnNL (takeBefore2NL content)) none []

/-- Skip the bytes of one MSB-continued varint without computing its value;
models the two ignored size varints at the head of `apply_delta`. -/
def skipVarint : List Nat → Option (List Nat)
  | [] => none
  | b :: rest => if b.testBit 7 then skipVarint rest else some rest

/-- Read one byte off a buffer; `none` past the end (a slice-index panic in
the source). -/
def readByte (l : List Nat) : Option (Nat × List Nat) :=
  match l with
  | [] => none
  | x :: xs => some (x, xs)

/-- Parse the optional offset and size bytes of a copy-from-base instruction:
bits 0..3 of `instr` select little-endian offset bytes, bits 4..6 select
little-endian size bytes; absent bytes contribute zero. -/
def parseCopy (instr : Nat) (l : List Nat) : Option (Nat × Nat × List Nat) :=
  match (if instr.testBit 0 then readByte l else some (0, l)) with
  | none => none
  | some (b0, l0) =>
  match (if instr.testBit 1 then readByte l0 else some (0, l0)) with
  | none => none
  | some (b1, l1) =>
  match (if instr.testBit 2 then readByte l1 else some (0, l1)) with
  | none => none
  | some (b2, l2) =>
  match (if instr.testBit 3 then readByte l2 else some (0, l2)) with
  | none => none
  | some (b3, l3) =>
  match (if instr.testBit 4 then readByte l3 else some (0, l3)) with
  | none => none
  | some (s0, l4) =>
  match (if instr.testBit 5 then readByte l4 else some (0, l4)) with
  | none => none
  | some (s1, l5) =>
  match (if instr.testBit 6 then readByte l5 else some (0, l5)) with
  | none => none
  | some (s2, l6) =>
    some (b0 + b1 * 256 + b2 * 65536 + b3 * 16777216, s0 + s1 * 256 + s2 * 65536, l6)

/-- Run the delta instruction stream against `base`; models the instruction
loop of `apply_delta`.  Instruction 0 and any out-of-range access model the
source's panics as `none`.  `fuel` only bounds the recursion; every call from
`apply_delta` supplies more fuel than there are instruction bytes, and each
iteration consumes at least one byte, so the bound is never hit. -/
def runInstrs (base : List Nat) : Nat → List Nat → Option (List Nat)
  | 0, _ => none
  | _ + 1, [] => some []
  | fuel + 1, instr :: rest =>
    if instr = 0 then none
    else if instr.testBit 7 then
      match parseCopy instr rest with
      | none => none
      | some (off, sz, l1) =>
        if off + sz ≤ base.length then
          match runInstrs base fuel l1 with
          | none => none
          | some out => some ((base.drop off).take sz ++ out)
        else none
    else
      if rest.length < instr then none
      else
        match runInstrs base fuel (rest.drop instr) with
        | none => none
        | some out => some (rest.take instr ++ out)

/-- Models `apply_delta`: skip the source-size and target-size varints (their
values are ignored by the source), then run the instruction stream. -/
def apply_delta (base : List Nat) (delta : List Nat) : Option (List Nat) :=
  match skipVarint delta with
  | none => none
  | some d1 =>
    match skipVarint d1 with
    | none => none
    | some d2 => runInstrs base (d2.length + 1) d2

/-- The packed object type codes (`PackObjectType`). -/
inductive PackObjectType where
  | ObjCommit
  | ObjTree
  | ObjBlob
  | ObjTag
  | ObjOfsDelta
  | ObjRefDelta
deriving DecidableEq, Repr

/-- Models `PackObjectType::new`: decode a 3-bit type code, `none` on 0, 5 or
out-of-range values (a panic in the source). -/
def PackObjectType.new (v : Nat) : Option PackObjectType :=
  match v with
  | 1 => some .ObjCommit
  | 2 => some .ObjTree
  | 3 => some .ObjBlob
  | 4 => some .ObjTag
  | 6 => some .ObjOfsDelta
  | 7 => some .ObjRefDelta
  | _ => none

/-- Models `PackObjectType::git_name`. -/
def PackObjectType.git_name : PackObjectType → Option String
  | .ObjCommit => some "commit"
  | .ObjTree => some "tree"
  | .ObjBlob => some "blob"
  | .ObjTag => some "tag"
  | _ => none

/-- A raw packed object (`PackObject`). -/
structure PackObject where
  obj_type : PackObjectType
  data : List Nat
deriving DecidableEq, Repr

/-- Error kinds for the pack decoder; each models one of the source's
panic/assert sites in `parse_pack` and its callees. -/
inductive PackError where
  | badMagic
  | truncated
  | unknownType
  | unsupportedEncoding
  | inflateFail
  | sizeMismatch
  | deltaError
  | badCommit
  | badTree
  | countMismatch
deriving DecidableEq, Repr

/-- The size-continuation loop of `parse_pack`: while the current byte has its
MSB set, read the next byte and add its low 7 bits shifted into place.
Returns the accumulated extra size bits and the bytes after the header;
`none` models running off the end of the buffer. -/
def sizeCont (cur : Nat) (l : List Nat) (shift : Nat) : Option (Nat × List Nat) :=
  if cur.testBit 7 then
    match l with
    | [] => none
    | b :: rest =>
      match sizeCont b rest (shift + 7) with
      | none => none
      | some (acc, rem) => some ((b % 128) * 2 ^ shift + acc, rem)
  else some (0, l)

/-- The ASCII framing header `"<type-name> <len>\0"` hashed together with a
payload to form an OID. -/
def headerBytes (nm : String) (len : Nat) : List Nat :=
  ((nm ++ " " ++ toString len).toList.map Char.toNat) ++ [0]

/-- Insert an object into the table when its type has a git name (the
`if let Some(name) = obj_type.git_name()` block of `parse_pack`); objects
whose type has no git name (reference deltas with a missing base) are not
inserted. -/
def insertObj (sha1 : List Nat → List Nat) (objects : List (List Nat × PackObject))
    (t : PackObjectType) (dec : List Nat) (consumed : Nat) :
    Except PackError (List (List Nat × PackObject) × Nat) :=
  match t.git_name with
  | some nm => .ok (alistInsert (sha1 (headerBytes nm dec.length ++ dec)) ⟨t, dec⟩ objects, consumed)
  | none => .ok (objects, consumed)

/-- Resolve a reference delta against its base when the base is present (the
`if let Some(delta_ref)` block of `parse_pack`): a present base yields the
undeltified payload with the base's type; a missing base leaves the record as
a reference delta, which `insertObj` then skips. -/
def finishRecord (sha1 : List Nat → List Nat) (objects : List (List Nat × PackObject))
    (t0 : PackObjectType) (deltaRef : Option (List Nat)) (dec : List Nat) (consumed : Nat) :
    Except PackError (List (List Nat × PackObject) × Nat) :=
  match deltaRef with
  | some dr =>
    match alistGet objects dr with
    | some base =>
      match apply_delta base.data dec with
      | none => .error .deltaError
      | some und => insertObj sha1 objects base.obj_type und consumed
    | none => insertObj sha1 objects t0 dec consumed
  | none => insertObj sha1 objects t0 dec consumed

/-- Decode one packed object record starting at the cursor (`rem` is the
buffer suffix from the cursor): type/size header, optional 20-byte delta base
OID, payload (via the `inflate` oracle, which returns the decompressed bytes
and the count of compressed bytes it consumed), declared-size check, delta
resolution, insertion.  Returns the updated table and the number of bytes
consumed. -/
def parseRecord (sha1 : List Nat → List Nat) (inflate : List Nat → Option (List Nat × Nat))
    (objects : List (List Nat × PackObject)) (rem : List Nat) :
    Except PackError (List (List Nat × PackObject) × Nat) :=
  match rem with
  | [] => .error .truncated
  | b :: rest =>
    match PackObjectType.new (b * 2 % 256 / 32) with
    | none => .error .unknownType
    | some t0 =>
      match sizeCont b rest 4 with
      | none => .error .truncated
      | some (extra, rem1) =>
        let len := b * 16 % 256 / 16 + extra
        let hdr := (b :: rest).length - rem1.length
        if t0 = .ObjOfsDelta then .error .unsupportedEncoding
        else if t0 = .ObjRefDelta then
          if rem1.length < 20 then .error .truncated
          else
            let dref := rem1.take 20
            let rem2 := rem1.drop 20
            if 0 < len then
              match inflate rem2 with
              | none => .error .inflateFail
              | some (dec, c) =>
                if len = dec.length then
                  finishRecord sha1 objects t0 (some dref) dec (hdr + 20 + (c + 4))
                else .error .sizeMismatch
            else
              finishRecord sha1 objects t0 (some dref) [] (hdr + 20 + 8)
        else
          if 0 < len then
            match inflate rem1 with
            | none => .error .inflateFail
            | some (dec, c) =>
              if len = dec.length then
                finishRecord sha1 objects t0 none dec (hdr + (c + 4))
              else .error .sizeMismatch
          else
            finishRecord sha1 objects t0 none [] (hdr + 8)

/-- The record-scanning loop of `parse_pack`: while the cursor is before the
20-byte trailer, decode a record and advance.  Returns the record count and
the object table.  `fuel` only bounds the iteration count; each record
consumes at least one byte, so any `fuel` above the buffer length behaves as
the source's unbounded loop. -/
def scanRecords (sha1 : List Nat → List Nat) (inflate : List Nat → Option (List Nat × Nat))
    (data : List Nat) :
    Nat → Nat → Nat → List (List Nat × PackObject) →
    Except PackError (Nat × List (List Nat × PackObject))
  | 0, _, _, _ => .error .truncated
  | fuel + 1, p, count, objects =>
    if p < data.length - 20 then
      match parseRecord sha1 inflate objects (data.drop p) with
      | .error e => .error e
      | .ok (objects2, consumed) =>
        scanRecords sha1 inflate data fuel (p + consumed) (count + 1) objects2
    else .ok (count, objects)

/-- The result of `parse_pack`: the commit map and tree map. -/
structure ParsePackResult where
  commits : List (List Nat × GitCommit)
  trees : List (List Nat × GitTree)
deriving DecidableEq, Repr

/-- The post-scan stage of `parse_pack`: parse every commit-typed object with
`parse_commit` and every tree-typed object with `parse_tree`, keying both maps
by OID. -/
def buildMaps : List (List Nat × PackObject) → Except PackError ParsePackResult
  | [] => .ok ⟨[], []⟩
  | (sha, o) :: rest =>
    match buildMaps rest with
    | .error e => .error e
    | .ok res =>
      if o.obj_type = .ObjCommit then
        match parse_commit o.data with
        | none => .error .badCommit
        | some c => .ok ⟨alistInsert sha c res.commits, res.trees⟩
      else if o.obj_type = .ObjTree then
        match parse_tree o.data with
        | none => .error .badTree
        | some t => .ok ⟨res.commits, alistInsert sha t res.trees⟩
      else .ok res

/-- Models `parse_pack`: check the `PACK` magic, read the declared object
count, scan the records, require the record count to equal the declared
count, then build the commit and tree maps. -/
def parsePack (sha1 : List Nat → List Nat) (inflate : List Nat → Option (List Nat × Nat))
    (fuel : Nat) (data : List Nat) : Except PackError ParsePackResult :=
  if data.length < 12 then .error .truncated
  else if !decide (data.take 4 = [80, 65, 67, 75]) then .error .badMagic
  else
    match scanRecords sha1 inflate data fuel 12 0 [] with
    | .error e => .error e
    | .ok (count, objects) =>
      if count = be32 (List.take 4 (List.drop 8 data)) then buildMaps objects
      else .error .countMismatch

/-- The change-count map (`num_changes: HashMap<String, u32>`). -/
abbrev CMap := List (String × Nat)

/-- Counter value at a path, defaulting to zero
(`num_changes.get(&path).unwrap_or(&0)`). -/
def getCount (m : CMap) (q : String) : Nat := (alistGet m q).getD 0

/-- Models `ChangeCounter::count_change`: bump the counter at a path. -/
def countChange (m : CMap) (path : String) : CMap :=
  alistInsert path (getCount m path + 1) m

mutual

/-- Models `ChangeCounter::record_changes`: identical OIDs contribute nothing;
otherwise look both trees up (a missing tree models the source's `unwrap`
panic as `none`) and walk the source tree's entries.  `fuel` only bounds the
recursion depth, which the source leaves unbounded. -/
def recordChanges (trees : List (List Nat × GitTree)) :
    Nat → CMap → List Nat → List Nat → List String → Option CMap
  | 0, _, _, _, _ => none
  | fuel + 1, m, fromT, toT, pfx =>
    if fromT = toT then some m
    else
      match alistGet trees fromT, alistGet trees toT with
      | some a, some b => recordEntries trees fuel a b pfx m
      | _, _ => none
termination_by fuel _ _ _ _ => (fuel, 0)

/-- The entry loop of `record_changes`: a directory entry matched by name and
directory kind with a differing OID pushes an extended path and recurses; a
file entry matched by name and file kind with a differing OID bumps every
path on the stack and the file's own path; unmatched entries are skipped. -/
def recordEntries (trees : List (List Nat × GitTree)) :
    Nat → List GitTreeEntry → GitTree → List String → CMap → Option CMap
  | _, [], _, _, m => some m
  | fuel, e :: rest, b, pfx, m =>
    if e.is_dir then
      match b.find? (fun ent => decide (ent.name = e.name) && ent.is_dir) with
      | some inb =>
        if e.sha ≠ inb.sha then
          match pfx.getLast? with
          | some lastp =>
            match recordChanges trees fuel m e.sha inb.sha (pfx ++ [lastp ++ e.name ++ "/"]) with
            | some m2 => recordEntries trees fuel rest b pfx m2
            | none => none
          | none => none
        else recordEntries trees fuel rest b pfx m
      | none => recordEntries trees fuel rest b pfx m
    else
      match b.find? (fun ent => decide (ent.name = e.name) && !ent.is_dir) with
      | some inb =>
        if e.sha ≠ inb.sha then
          match pfx.getLast? with
          | some lastp =>
            recordEntries trees fuel rest b pfx
              (countChange (pfx.foldl countChange m) (lastp ++ e.name))
          | none => none
        else recordEntries trees fuel rest b pfx m
      | none => recordEntries trees fuel rest b pfx m
termination_by fuel entries _ _ _ => (fuel, entries.length + 1)

end

mutual

/-- Models `ChangeCounter::walk_commit`: skip already-visited commits, mark
the commit visited, then handle its parents in order.  Returns the visited
set and counter map; `none` models a missing-commit `unwrap` panic (or fuel
running out, which a real run never does on acyclic history). -/
def walkCommit (commits : List (List Nat × GitCommit)) (trees : List (List Nat × GitTree)) :
    Nat → List (List Nat) → CMap → List Nat → Option (List (List Nat) × CMap)
  | 0, _, _, _ => none
  | fuel + 1, visited, m, sha =>
    if sha ∈ visited then some (visited, m)
    else
      match alistGet commits sha with
      | none => none
      | some c => walkParents commits trees fuel (sha :: visited) m c.tree_sha c.parents
termination_by fuel _ _ _ => (fuel, 0)

/-- The parent loop of `walk_commit`: for each parent in order, diff the
parent's tree against the commit's tree with the root prefix stack, then
recurse into the parent. -/
def walkParents (commits : List (List Nat × GitCommit)) (trees : List (List Nat × GitTree)) :
    Nat → List (List Nat) → CMap → List Nat → List (List Nat) →
    Option (List (List Nat) × CMap)
  | _, visited, m, _, [] => some (visited, m)
  | fuel, visited, m, treeSha, p :: ps =>
    match alistGet commits p with
    | none => none
    | some parent =>
      match recordChanges trees fuel m parent.tree_sha treeSha ["/"] with
      | none => none
      | some m2 =>
        match walkCommit commits trees fuel visited m2 p with
        | none => none
        | some (v2, m3) => walkParents commits trees fuel v2 m3 treeSha ps
termination_by fuel _ _ _ ps => (fuel, ps.length + 1)

end

/-- A node of the result tree (`TreeNode`): name, `"directory"`/`"file"`
type tag, change count, the constant `numFiles` placeholder, and children. -/
inductive TreeNode where
  | mk (name : String) (type : String) (numChanges : Nat) (numFiles : Nat)
      (children : List TreeNode)

def TreeNode.name : TreeNode → String
  | .mk n _ _ _ _ => n

def TreeNode.type : TreeNode → String
  | .mk _ t _ _ _ => t

def TreeNode.numChanges : TreeNode → Nat
  | .mk _ _ c _ _ => c

def TreeNode.numFiles : TreeNode → Nat
  | .mk _ _ _ f _ => f

def TreeNode.children : TreeNode → List TreeNode
  | .mk _ _ _ _ cs => cs

mutual

/-- Models `ChangeCounter::build_tree_node`: look the tree up (`none` models
the `unwrap` panic), build the children, and emit a `"directory"` node whose
change count is the map's value at `path` (default 0) and whose `numFiles` is
the source's constant 666. -/
def buildTreeNode (trees : List (List Nat × GitTree)) (m : CMap) :
    Nat → String → String → List Nat → Option TreeNode
  | 0, _, _, _ => none
  | fuel + 1, path, nm, sha =>
    match alistGet trees sha with
    | none => none
    | some tree =>
      match buildChildren trees m fuel path tree with
      | none => none
      | some cs => some (.mk nm "directory" (getCount m path) 666 cs)
termination_by fuel _ _ _ => (fuel, 0)

/-- The entry loop of `build_tree_node`: directory entries recurse with the
extended path; file entries become `"file"` leaves with no children. -/
def buildChildren (trees : List (List Nat × GitTree)) (m : CMap) :
    Nat → String → List GitTreeEntry → Option (List TreeNode)
  | _, _, [] => some []
  | fuel, path, e :: rest =>
    if e.is_dir then
      match buildTreeNode trees m fuel (path ++ e.name ++ "/") e.name e.sha with
      | none => none
      | some node => (buildChildren trees m fuel path rest).map (fun cs => node :: cs)
    else
      (buildChildren trees m fuel path rest).map
        (fun cs => TreeNode.mk e.name "file" (getCount m (path ++ e.name)) 666 [] :: cs)
termination_by fuel _ entries => (fuel, entries.length + 1)

end

mutual

/-- Every node in a result tree that carries the `"file"` type tag has no
children. -/
def filesLeaves : TreeNode → Bool
  | .mk _ t _ _ cs => (!decide (t = "file") || cs.isEmpty) && filesLeavesAll cs

def filesLeavesAll : List TreeNode → Bool
  | [] => true
  | c :: rest => filesLeaves c && filesLeavesAll rest

end

/-- Spec-side: the size contribution of continuation bytes starting at a bit
position, each byte's low 7 bits shifted into place (the spec's "first
continuation byte contributing bits 4..10, the next 11..17"). -/
def contribSumFrom (shift : Nat) : List Nat → Nat
  | [] => 0
  | c :: rest => (c % 128) * 2 ^ shift + contribSumFrom (shift + 7) rest

/-- Spec-side: total extra size encoded by the continuation bytes of a pack
object header, starting at bit 4. -/
def contribSum (conts : List Nat) : Nat := contribSumFrom 4 conts

/-- Spec-side: the value of an MSB-continued little-endian base-128 varint,
as described by the spec for the two sizes at the head of a delta stream. -/
def readSizeVarint : List Nat → Option (Nat × List Nat)
  | [] => none
  | b :: rest =>
    if b.testBit 7 then
      match readSizeVarint rest with
      | some (v, rem) => some (b % 128 + v * 128, rem)
      | none => none
    else some (b % 128, rest)

/-- Spec-side: the source size and target size declared at the head of a delta
stream. -/
def declaredSizes (delta : List Nat) : Option (Nat × Nat) :=
  match readSizeVarint delta with
  | none => none
  | some (src, r1) =>
    match readSizeVarint r1 with
    | none => none
    | some (tgt, _) => some (src, tgt)

/-- Length specification of the instruction loop: the total number of bytes
the instructions of a delta stream produce, with the same acceptance
conditions as `runInstrs`. -/
def instrTotal (base : List Nat) : Nat → List Nat → Option Nat
  | 0, _ => none
  | _ + 1, [] => some 0
  | fuel + 1, instr :: rest =>
    if instr = 0 then none
    else if instr.testBit 7 then
      match parseCopy instr rest with
      | none => none
      | some (off, sz, l1) =>
        if off + sz ≤ base.length then
          match instrTotal base fuel l1 with
          | none => none
          | some n => some (sz + n)
        else none
    else
      if rest.length < instr then none
      else
        match instrTotal base fuel (rest.drop instr) with
        | none => none
        | some n => some (instr + n)

/-- Length specification of `apply_delta`: skip the two size varints, then
total the instruction sizes. -/
def deltaLenSpec (base : List Nat) (delta : List Nat) : Option Nat :=
  match skipVarint delta with
  | none => none
  | some d1 =>
    match skipVarint d1 with
    | none => none
    | some d2 => instrTotal base (d2.length + 1) d2

/-- Two tree entries match when they agree on name and on file-vs-directory
kind (the walker's matching rule). -/
def sameKey (x y : GitTreeEntry) : Bool :=
  decide (x.name = y.name) && (x.is_dir == y.is_dir)

/-- Spec-side: the packed byte form of one tree entry, `mode SP name NUL oid`. -/
def encodeEntry (e : List Nat × List Nat × List Nat) : List Nat :=
  e.1 ++ [32] ++ e.2.1 ++ [0] ++ e.2.2

/-- Spec-side: the entry the tree parser is claimed to produce for a packed
entry: directory iff the mode's first byte is not ASCII `1`, name the bytes
between the space and the NUL, OID the 20 bytes after the NUL. -/
def specEntry (e : List Nat × List Nat × List Nat) : GitTreeEntry :=
  ⟨!decide (e.1.headI = 49), String.mk (e.2.1.map Char.ofNat), e.2.2⟩

/-- A mode or name token for which the tree parser is claimed exact: nonempty,
ASCII, no NUL, no whitespace. -/
def asciiToken (l : List Nat) : Prop :=
  l ≠ [] ∧ ∀ b ∈ l, 0 < b ∧ b < 128 ∧ b ∉ ([9, 10, 11, 12, 13, 32] : List Nat)

instance (l : List Nat) : Decidable (asciiToken l) := by
  unfold asciiToken
  infer_instance

/-! Concrete instances used by claim theorems and witnesses. -/

/-- Concrete tree payload whose single entry has mode `100644` and the
space-containing name `a b`. -/
def c5data : List Nat :=
  [49, 48, 48, 54, 52, 52, 32, 97, 32, 98] ++ [0] ++ List.replicate 20 5

/-- Two-commit scenario: parent commit `[1]` and child commit `[2]` whose
trees differ in exactly the one file `/a/b.txt`. -/
def c1Trees : List (List Nat × GitTree) :=
  [([11], [⟨true, "a", [21]⟩]), ([12], [⟨true, "a", [22]⟩]),
   ([21], [⟨false, "b.txt", [31]⟩]), ([22], [⟨false, "b.txt", [32]⟩])]

def c1Commits : List (List Nat × GitCommit) :=
  [([1], ⟨[11], []⟩), ([2], ⟨[12], [[1]]⟩)]

/-- A fixed hash oracle for concrete pack evaluations. -/
def sha1c : List Nat → List Nat := fun _ => List.replicate 20 7

/-- A fixed inflate oracle for concrete pack evaluations: one decompressed
byte, one compressed byte consumed. -/
def inflatec : List Nat → Option (List Nat × Nat) := fun l => some (l.take 1, 1)

/-- One packed record of an empty blob: header byte `0x30` (type 3, size 0)
followed by the fixed 8-byte empty-deflate region. -/
def emptyBlobRecord : List Nat := [48] ++ List.replicate 8 0

/-- A pack declaring 5 objects but containing only 4 records. -/
def c7Pack : List Nat :=
  [80, 65, 67, 75, 0, 0, 0, 2, 0, 0, 0, 5] ++ emptyBlobRecord ++ emptyBlobRecord ++
  emptyBlobRecord ++ emptyBlobRecord ++ List.replicate 20 0

/-- A well-formed pack with one empty-blob record. -/
def c7aPack : List Nat :=
  [80, 65, 67, 75, 0, 0, 0, 2, 0, 0, 0, 1] ++ emptyBlobRecord ++ List.replicate 20 0

/-- A pack whose first record is a reference delta with an absent base
(`0x71` header: type 7, size 1; base OID twenty `1` bytes; one compressed
byte and checksum filler) and whose second record is an empty blob. -/
def c8Pack : List Nat :=
  [80, 65, 67, 75, 0, 0, 0, 2, 0, 0, 0, 2] ++
  ([113] ++ List.replicate 20 1 ++ [9] ++ [0, 0, 0, 0]) ++
  emptyBlobRecord ++ List.replicate 20 0

def c10Trees : List (List Nat × GitTree) := [([1], [⟨false, "f.txt", [9]⟩])]

/-! Helper lemmas. -/

theorem find?_filter_eq {α : Type} (l : List α) (p keep : α → Bool)
    (h : ∀ x ∈ l, p x = true → keep x = true) :
    (l.filter keep).find? p = l.find? p := by
  induction l with
  | nil => simp
  | cons x xs ih =>
    have ihx := ih (fun y hy hpy => h y (List.mem_cons_of_mem x hy) hpy)
    cases hk : keep x with
    | true =>
      simp only [List.filter_cons, hk, if_true]
      cases hp : p x with
      | true =>
        rw [List.find?_cons_of_pos _ hp, List.find?_cons_of_pos _ hp]
      | false =>
        rw [List.find?_cons_of_neg _ (by simp [hp]), List.find?_cons_of_neg _ (by simp [hp]),
          ihx]
    | false =>
      have hp : p x = false := by
        cases hpx : p x with
        | true => exact absurd (h x (List.mem_cons_self x xs) hpx) (by simp [hk])
        | false => rfl
      simp only [List.filter_cons, hk, Bool.false_eq_true, if_false]
      rw [List.find?_cons_of_neg _ (by simp [hp]), ihx]

theorem alistGet_insert {α β : Type} [DecidableEq α] (m : List (α × β)) (k q : α) (v : β) :
    alistGet (alistInsert k v m) q = if q = k then some v else alistGet m q := by
  by_cases h : q = k
  · subst h
    simp [alistGet, alistInsert, List.find?]
  · have hk : decide ((k, v).1 = q) = false := decide_eq_false (fun he => h he.symm)
    simp only [alistGet, alistInsert, if_neg h]
    rw [List.find?_cons_of_neg _ (by simp at hk ⊢; exact fun he => h he.symm)]
    rw [find?_filter_eq]
    intro x hx hpx
    simp only [decide_eq_true_eq] at hpx
    simp only [Bool.not_eq_true']
    exact decide_eq_false (fun he => h (hpx ▸ he ▸ rfl))

theorem getCount_countChange (m : CMap) (p q : String) :
    getCount (countChange m p) q = getCount m q + (if q = p then 1 else 0) := by
  by_cases h : q = p
  · subst h
    simp [getCount, countChange, alistGet_insert]
  · simp [getCount, countChange, alistGet_insert, h]

theorem getCount_foldl_countChange (l : List String) (m : CMap) (q : String) :
    getCount (l.foldl countChange m) q = getCount m q + l.count q := by
  induction l generalizing m with
  | nil => simp
  | cons p rest ih =>
    simp only [List.foldl_cons, ih, getCount_countChange, List.count_cons]
    by_cases h : q = p
    · subst h
      simp
      omega
    · have hpq : ¬(p == q) = true := by
        simp only [beq_iff_eq]
        exact fun he => h he.symm
      simp only [h, if_false, hpq, Bool.false_eq_true]
      simp

theorem sizeCont_clear (cur : Nat) (l : List Nat) (shift : Nat)
    (h : cur.testBit 7 = false) : sizeCont cur l shift = some (0, l) := by
  rw [sizeCont.eq_def]
  simp [h]

theorem sizeCont_flagged :
    ∀ (cs : List Nat) (cur t : Nat) (rest : List Nat) (shift : Nat),
      cur.testBit 7 = true → (∀ c ∈ cs, c.testBit 7 = true) → t.testBit 7 = false →
      sizeCont cur (cs ++ t :: rest) shift = some (contribSumFrom shift (cs ++ [t]), rest) := by
  intro cs
  induction cs with
  | nil =>
    intro cur t rest shift hc _ ht
    rw [List.nil_append, sizeCont.eq_def]
    simp only [hc, if_true]
    rw [sizeCont_clear t rest (shift + 7) ht]
    simp [contribSumFrom]
  | cons c cs2 ih =>
    intro cur t rest shift hc hcs ht
    have hsub := ih c t rest (shift + 7) (hcs c (List.mem_cons_self c cs2))
      (fun x hx => hcs x (List.mem_cons_of_mem c hx)) ht
    rw [List.cons_append, sizeCont.eq_def]
    simp only [hc, if_true, hsub, contribSumFrom, List.cons_append]
    rfl

set_option maxRecDepth 4096 in
/-- Claim C6: the pack object header is decoded with the type in bits 6..4 of
the first byte and the size from bits 3..0 of the first byte extended by the
low 7 bits of each continuation byte at bit positions 4..10, 11..17, and so
on, reading while the current byte's MSB is set and stopping after the first
byte whose MSB is clear. -/
theorem claim_C6_header_bits :
    (∀ b : Nat, b < 256 → b * 2 % 256 / 32 = b / 2 ^ 4 % 2 ^ 3 ∧ b * 16 % 256 / 16 = b % 2 ^ 4)
    ∧ (∀ (b : Nat) (rest : List Nat), b.testBit 7 = false →
        sizeCont b rest 4 = some (0, rest))
    ∧ (∀ (b t : Nat) (cs rest : List Nat), b.testBit 7 = true →
        (∀ c ∈ cs, c.testBit 7 = true) → t.testBit 7 = false →
        sizeCont b (cs ++ t :: rest) 4 = some (contribSum (cs ++ [t]), rest)) := by
  refine ⟨by decide, ?_, ?_⟩
  · intro b rest h
    exact sizeCont_clear b rest 4 h
  · intro b t cs rest hb hcs ht
    exact sizeCont_flagged cs b t rest 4 hb hcs ht

theorem claim_C6_witness :
    ((0x95 : Nat) * 2 % 256 / 32 = 0x95 / 2 ^ 4 % 2 ^ 3
      ∧ (0x95 : Nat) * 16 % 256 / 16 = 0x95 % 2 ^ 4)
    ∧ sizeCont 5 [1, 2] 4 = some (0, [1, 2])
    ∧ sizeCont 0x95 [0x83, 0x12, 255] 4 = some (contribSum [0x83, 0x12], [255]) :=
  ⟨claim_C6_header_bits.1 0x95 (by decide),
   claim_C6_header_bits.2.1 5 [1, 2] (by decide),
   claim_C6_header_bits.2.2 0x95 0x12 [0x83] [255] (by decide)
     (by intro c hc; simp at hc; subst hc; decide) (by decide)⟩

/-- Claim C3 (code bug): a copy-from-base instruction whose bitmap selects no
size bytes copies zero bytes in the source; the conventional substitution of
0x10000 for a zero copy size is not applied.  At the failing input, the
instruction byte 0x80 selects no offset and no size bytes, and the resolver
produces an empty output instead of a 65536-byte copy. -/
theorem claim_C3_zero_copy_size_eval :
    apply_delta [1, 2, 3] [0, 0, 128] = some [] := by decide

theorem runInstrs_length (base : List Nat) :
    ∀ (fuel : Nat) (l out : List Nat),
      runInstrs base fuel l = some out → instrTotal base fuel l = some out.length := by
  intro fuel
  induction fuel with
  | zero => intro l out h; simp [runInstrs] at h
  | succ f ih =>
    intro l out h
    cases l with
    | nil =>
      simp only [runInstrs, Option.some.injEq] at h
      subst h
      simp [instrTotal]
    | cons instr rest =>
      by_cases h0 : instr = 0
      · exfalso
        simp [runInstrs, h0] at h
      · by_cases h7 : instr.testBit 7 = true
        · cases hpc : parseCopy instr rest with
          | none =>
            exfalso
            simp [runInstrs, h0, h7, hpc] at h
          | some v =>
            obtain ⟨off, sz, l1⟩ := v
            by_cases hrange : off + sz ≤ base.length
            · cases hr : runInstrs base f l1 with
              | none =>
                exfalso
                simp [runInstrs, h0, h7, hpc, hrange, hr] at h
              | some out1 =>
                have hout : out = List.take sz (List.drop off base) ++ out1 := by
                  simp [runInstrs, h0, h7, hpc, hrange, hr] at h
                  exact h.symm
                rw [hout]
                simp [instrTotal, h0, h7, hpc, hrange, ih l1 out1 hr,
                  List.length_append, List.length_take, List.length_drop]
                omega
            · exfalso
              simp [runInstrs, h0, h7, hpc, hrange] at h
        · have h7f : instr.testBit 7 = false := by simpa using h7
          by_cases hlen : rest.length < instr
          · exfalso
            simp [runInstrs, h0, h7f, hlen] at h
          · cases hr : runInstrs base f (rest.drop instr) with
            | none =>
              exfalso
              simp [runInstrs, h0, h7f, hlen, hr] at h
            | some out1 =>
              have hout : out = List.take instr rest ++ out1 := by
                simp [runInstrs, h0, h7f, hlen, hr] at h
                exact h.symm
              rw [hout]
              simp [instrTotal, h0, h7f, hlen, ih _ out1 hr,
                List.length_append, List.length_take]
              omega

/-- Claim C4 counterexample: the delta stream `[0, 5, 1, 97]` declares target
size 5 but is accepted with output `[97]` of length 1: the resolver never
compares the output length with the declared target size. -/
theorem claim_C4_counterexample :
    apply_delta [] [0, 5, 1, 97] = some [97]
      ∧ declaredSizes [0, 5, 1, 97] = some (0, 5)
      ∧ ([97] : List Nat).length ≠ 5 := by decide

/-- Claim C4 as amended: the resolver reads but never checks the declared
target size; the length of any accepted output equals the total number of
bytes produced by the instructions themselves (copy sizes plus literal
lengths), which for canonical deltas — and only for those — coincides with
the declared target size. -/
theorem claim_C4_output_length (base delta out : List Nat)
    (h : apply_delta base delta = some out) :
    deltaLenSpec base delta = some out.length := by
  cases h1 : skipVarint delta with
  | none => exfalso; simp [apply_delta, h1] at h
  | some d1 =>
    cases h2 : skipVarint d1 with
    | none => exfalso; simp [apply_delta, h1, h2] at h
    | some d2 =>
      have h3 : runInstrs base (d2.length + 1) d2 = some out := by
        simpa [apply_delta, h1, h2] using h
      simp only [deltaLenSpec, h1, h2]
      exact runInstrs_length base (d2.length + 1) d2 out h3

theorem claim_C4_witness : deltaLenSpec [] [0, 5, 1, 97] = some 1 :=
  claim_C4_output_length [] [0, 5, 1, 97] [97] (by decide)

theorem utf8DecodeGo_ascii :
    ∀ (fuel : Nat) (l : List Nat), (∀ b ∈ l, b < 128) → l.length ≤ fuel →
      utf8DecodeGo fuel l = some (l.map Char.ofNat) := by
  intro fuel
  induction fuel with
  | zero =>
    intro l _ hf
    cases l with
    | nil => rfl
    | cons b rest => simp at hf
  | succ f ih =>
    intro l h hf
    cases l with
    | nil => rfl
    | cons b rest =>
      have hb : b < 128 := h b (List.mem_cons_self b rest)
      have hr := ih rest (fun x hx => h x (List.mem_cons_of_mem b hx)) (by
        simp only [List.length_cons] at hf
        omega)
      simp only [utf8DecodeGo, decodeOne, hb, if_pos, hr, List.map_cons]

theorem utf8Decode_ascii :
    ∀ l : List Nat, (∀ b ∈ l, b < 128) → utf8Decode l = some (l.map Char.ofNat) := by
  intro l h
  exact utf8DecodeGo_ascii l.length l h (le_refl _)

set_option maxRecDepth 4096 in
theorem asciiWs_false :
    ∀ b : Nat, b < 128 → b ∉ ([9, 10, 11, 12, 13, 32] : List Nat) →
      isRustWs (Char.ofNat b) = false := by decide

set_option maxRecDepth 4096 in
theorem asciiEncode : ∀ b : Nat, b < 128 → utf8EncodeChar (Char.ofNat b) = [b] := by decide

theorem splitWsAux_append_nonws :
    ∀ (A l acc : List Char), (∀ c ∈ A, isRustWs c = false) →
      splitWsAux (A ++ l) acc = splitWsAux l (A.reverse ++ acc) := by
  intro A
  induction A with
  | nil => intro l acc _; simp
  | cons c A2 ih =>
    intro l acc h
    have hc : isRustWs c = false := h c (List.mem_cons_self c A2)
    rw [List.cons_append]
    simp only [splitWsAux, hc, Bool.false_eq_true, if_false]
    rw [ih l (c :: acc) (fun x hx => h x (List.mem_cons_of_mem c hx))]
    simp [List.append_assoc]

theorem splitWsAux_single :
    ∀ B : List Char, B ≠ [] → (∀ c ∈ B, isRustWs c = false) → splitWsAux B [] = [B] := by
  intro B hB hBw
  have h1 := splitWsAux_append_nonws B [] [] hBw
  rw [List.append_nil] at h1
  rw [h1, List.append_nil]
  simp only [splitWsAux]
  rw [if_neg (by simpa using hB), List.reverse_reverse]

theorem splitWhitespace_two :
    ∀ A B : List Char, A ≠ [] → B ≠ [] →
      (∀ c ∈ A, isRustWs c = false) → (∀ c ∈ B, isRustWs c = false) →
      splitWhitespace (A ++ ' ' :: B) = [A, B] := by
  intro A B hA hB hAw hBw
  have hsp : isRustWs ' ' = true := rfl
  have hAr : A.reverse ≠ [] := by simpa using hA
  unfold splitWhitespace
  rw [splitWsAux_append_nonws A (' ' :: B) [] hAw, List.append_nil]
  simp only [splitWsAux, hsp, if_true]
  rw [if_neg hAr, List.reverse_reverse, splitWsAux_single B hB hBw]

theorem parse_entry_ascii :
    ∀ (m n sha : List Nat), asciiToken m → asciiToken n →
      parse_entry (m ++ 32 :: n) sha
        = some ⟨!decide (m.headI = 49), String.mk (n.map Char.ofNat), sha⟩ := by
  intro m n sha hm hn
  obtain ⟨hm0, hmb⟩ := hm
  obtain ⟨hn0, hnb⟩ := hn
  have hlt : ∀ b ∈ m ++ 32 :: n, b < 128 := by
    intro b hb
    rcases List.mem_append.mp hb with h | h
    · exact (hmb b h).2.1
    · rcases List.mem_cons.mp h with h | h
      · omega
      · exact (hnb b h).2.1
  have hdec := utf8Decode_ascii (m ++ 32 :: n) hlt
  have hmap : (m ++ 32 :: n).map Char.ofNat
      = m.map Char.ofNat ++ ' ' :: n.map Char.ofNat := by
    simp only [List.map_append, List.map_cons]
  have hmw : ∀ c ∈ m.map Char.ofNat, isRustWs c = false := by
    intro c hc
    obtain ⟨b, hb, rfl⟩ := List.mem_map.mp hc
    exact asciiWs_false b (hmb b hb).2.1 (hmb b hb).2.2
  have hnw : ∀ c ∈ n.map Char.ofNat, isRustWs c = false := by
    intro c hc
    obtain ⟨b, hb, rfl⟩ := List.mem_map.mp hc
    exact asciiWs_false b (hnb b hb).2.1 (hnb b hb).2.2
  have hsplit := splitWhitespace_two (m.map Char.ofNat) (n.map Char.ofNat)
    (by simpa using hm0) (by simpa using hn0) hmw hnw
  rw [hmap] at hdec
  cases m with
  | nil => exact absurd rfl hm0
  | cons mh mt =>
    have hmh : mh < 128 := (hmb mh (List.mem_cons_self mh mt)).2.1
    simp only [List.map_cons] at hdec hsplit
    simp only [parse_entry, hdec, hsplit]
    rw [asciiEncode mh hmh]
    simp [List.headI]

theorem splitAtNul_left :
    ∀ (pre suf : List Nat), (∀ b ∈ pre, b ≠ 0) →
      splitAtNul (pre ++ 0 :: suf) = some (pre, suf) := by
  intro pre
  induction pre with
  | nil => intro suf _; simp [splitAtNul]
  | cons b rest ih =>
    intro suf h
    have hb : b ≠ 0 := h b (List.mem_cons_self b rest)
    rw [List.cons_append]
    simp only [splitAtNul, hb, if_false]
    rw [ih suf (fun x hx => h x (List.mem_cons_of_mem b hx))]
    rfl

theorem length_le_flatten_encode :
    ∀ l : List (List Nat × List Nat × List Nat),
      l.length ≤ (l.map encodeEntry).flatten.length := by
  intro l
  induction l with
  | nil => simp
  | cons e rest ih =>
    simp only [List.map_cons, List.flatten_cons, List.length_append, List.length_cons]
    have h1 : 1 ≤ (encodeEntry e).length := by
      simp [encodeEntry]
      omega
    omega

theorem parseTreeGo_entries :
    ∀ (l : List (List Nat × List Nat × List Nat)) (fuel : Nat),
      (∀ e ∈ l, asciiToken e.1 ∧ asciiToken e.2.1 ∧ e.2.2.length = 20) →
      l.length < fuel →
      parseTreeGo fuel (l.map encodeEntry).flatten = some (l.map specEntry) := by
  intro l
  induction l with
  | nil =>
    intro fuel _ hf
    cases fuel with
    | zero => omega
    | succ f => simp [parseTreeGo, splitAtNul]
  | cons e rest ih =>
    intro fuel hwf hf
    cases fuel with
    | zero => omega
    | succ f =>
      obtain ⟨hm, hn, ho⟩ := hwf e (List.mem_cons_self e rest)
      have hmb := hm.2
      have hnb := hn.2
      have hpre : ∀ b ∈ e.1 ++ 32 :: e.2.1, b ≠ 0 := by
        intro b hb
        rcases List.mem_append.mp hb with h | h
        · have := (hmb b h).1
          omega
        · rcases List.mem_cons.mp h with h | h
          · omega
          · have := (hnb b h).1
            omega
      have heq : (encodeEntry e :: rest.map encodeEntry).flatten
          = (e.1 ++ 32 :: e.2.1) ++ 0 :: (e.2.2 ++ (rest.map encodeEntry).flatten) := by
        simp [encodeEntry, List.append_assoc]
      have hsplit : splitAtNul (encodeEntry e :: rest.map encodeEntry).flatten
          = some (e.1 ++ 32 :: e.2.1, e.2.2 ++ (rest.map encodeEntry).flatten) := by
        rw [heq]
        exact splitAtNul_left _ _ hpre
      have hlen : ¬(e.2.2 ++ (rest.map encodeEntry).flatten).length < 20 := by
        simp [List.length_append, ho]
      have htake : (e.2.2 ++ (rest.map encodeEntry).flatten).take 20 = e.2.2 := by
        rw [← ho, List.take_left]
      have hdrop : (e.2.2 ++ (rest.map encodeEntry).flatten).drop 20
          = (rest.map encodeEntry).flatten := by
        rw [← ho, List.drop_left]
      have hentry := parse_entry_ascii e.1 e.2.1 e.2.2 hm hn
      have hrec := ih f (fun x hx => hwf x (List.mem_cons_of_mem e hx)) (by
        simp only [List.length_cons] at hf
        omega)
      simp only [List.map_cons, parseTreeGo, hsplit, hlen, if_false, htake, hdrop,
        hentry, hrec]
      rfl

/-- Claim C5 counterexample: the payload `"100644 a b\0" ++ 20 OID bytes` is a
packed entry whose name (the bytes between the space and the NUL) is `a b`,
yet the parser returns the entry with name `"a"`: `split_whitespace`
truncates names at their first whitespace character. -/
theorem claim_C5_counterexample :
    c5data = encodeEntry ([49, 48, 48, 54, 52, 52], [97, 32, 98], List.replicate 20 5)
      ∧ parse_tree c5data = some [⟨false, "a", List.replicate 20 5⟩]
      ∧ String.mk ([97, 32, 98].map Char.ofNat) = "a b"
      ∧ ("a" : String) ≠ "a b" := by
  refine ⟨by decide, by decide, by decide, by decide⟩

/-- Claim C5 as amended: for every packed-entry payload in which each mode and
each name is a nonempty token of non-NUL, non-whitespace ASCII bytes and each
OID is 20 bytes, the parser returns the entries in payload order, with the
name exactly the bytes between the space and the NUL, the OID the 20 bytes
after the NUL, and the directory flag set iff the mode's first byte is not
ASCII `1`.  (The restriction to whitespace-free ASCII names is forced: a
whitespace byte truncates the parsed name, and non-UTF-8 name bytes make the
parser panic.) -/
theorem claim_C5_tree_entries (l : List (List Nat × List Nat × List Nat))
    (hwf : ∀ e ∈ l, asciiToken e.1 ∧ asciiToken e.2.1 ∧ e.2.2.length = 20) :
    parse_tree (l.map encodeEntry).flatten = some (l.map specEntry) := by
  unfold parse_tree
  exact parseTreeGo_entries l ((l.map encodeEntry).flatten.length + 1) hwf
    (by have := length_le_flatten_encode l; omega)

theorem claim_C5_witness :
    parse_tree ([([49, 48, 48, 54, 52, 52], [97], List.replicate 20 5)].map encodeEntry).flatten
      = some ([([49, 48, 48, 54, 52, 52], [97], List.replicate 20 5)].map specEntry) :=
  claim_C5_tree_entries [([49, 48, 48, 54, 52, 52], [97], List.replicate 20 5)] (by decide)

theorem recordEntries_filter_dest
    (trees : List (List Nat × GitTree)) (fuel : Nat) :
    ∀ (a : List GitTreeEntry) (b : GitTree) (keep : GitTreeEntry → Bool)
      (pfx : List String) (m : CMap),
      (∀ eb ∈ b, (∃ ea ∈ a, sameKey eb ea = true) → keep eb = true) →
      recordEntries trees fuel a (b.filter keep) pfx m
        = recordEntries trees fuel a b pfx m := by
  intro a
  induction a with
  | nil =>
    intro b keep pfx m hk
    simp [recordEntries]
  | cons e rest ih =>
    intro b keep pfx m hk
    have ihr : ∀ m2 : CMap, recordEntries trees fuel rest (b.filter keep) pfx m2
        = recordEntries trees fuel rest b pfx m2 := by
      intro m2
      refine ih b keep pfx m2 (fun eb hb hex => hk eb hb ?_)
      obtain ⟨ea, hea, hsk⟩ := hex
      exact ⟨ea, List.mem_cons_of_mem e hea, hsk⟩
    cases he : e.is_dir with
    | true =>
      have hfind := find?_filter_eq b (fun ent => decide (ent.name = e.name) && ent.is_dir) keep
        (by
          intro x hx hpx
          apply hk x hx
          refine ⟨e, List.mem_cons_self e rest, ?_⟩
          simp only [Bool.and_eq_true, decide_eq_true_eq] at hpx
          simp [sameKey, hpx.1, hpx.2, he])
      simp only [recordEntries, he, if_true, hfind]
      cases hf : b.find? (fun ent => decide (ent.name = e.name) && ent.is_dir) with
      | none => exact ihr m
      | some inb =>
        dsimp only
        by_cases hs : e.sha ≠ inb.sha
        · rw [if_pos hs, if_pos hs]
          cases hl : pfx.getLast? with
          | none => rfl
          | some lastp =>
            dsimp only
            cases hrc : recordChanges trees fuel m e.sha inb.sha
                (pfx ++ [lastp ++ e.name ++ "/"]) with
            | none => rfl
            | some m2 => exact ihr m2
        · rw [if_neg hs, if_neg hs]
          exact ihr m
    | false =>
      have hfind := find?_filter_eq b (fun ent => decide (ent.name = e.name) && !ent.is_dir) keep
        (by
          intro x hx hpx
          apply hk x hx
          refine ⟨e, List.mem_cons_self e rest, ?_⟩
          simp only [Bool.and_eq_true, decide_eq_true_eq, Bool.not_eq_true'] at hpx
          simp [sameKey, hpx.1, hpx.2, he])
      simp only [recordEntries, he, Bool.false_eq_true, if_false, hfind]
      cases hf : b.find? (fun ent => decide (ent.name = e.name) && !ent.is_dir) with
      | none => exact ihr m
      | some inb =>
        dsimp only
        by_cases hs : e.sha ≠ inb.sha
        · rw [if_pos hs, if_pos hs]
          cases hl : pfx.getLast? with
          | none => rfl
          | some lastp =>
            dsimp only
            exact ihr _
        · rw [if_neg hs, if_neg hs]
          exact ihr m

theorem recordEntries_filter_src
    (trees : List (List Nat × GitTree)) (fuel : Nat) :
    ∀ (a : List GitTreeEntry) (b : GitTree) (keep : GitTreeEntry → Bool)
      (pfx : List String) (m : CMap),
      (∀ ea ∈ a, keep ea = false → ∀ eb ∈ b, sameKey ea eb = false) →
      recordEntries trees fuel (a.filter keep) b pfx m
        = recordEntries trees fuel a b pfx m := by
  intro a
  induction a with
  | nil =>
    intro b keep pfx m _
    simp
  | cons e rest ih =>
    intro b keep pfx m hk
    have ihr : ∀ m2 : CMap, recordEntries trees fuel (rest.filter keep) b pfx m2
        = recordEntries trees fuel rest b pfx m2 :=
      fun m2 => ih b keep pfx m2 (fun ea hea hkf => hk ea (List.mem_cons_of_mem e hea) hkf)
    cases hke : keep e with
    | true =>
      simp only [List.filter_cons, hke, if_true]
      cases he : e.is_dir with
      | true =>
        simp only [recordEntries, he, if_true]
        cases hf : b.find? (fun ent => decide (ent.name = e.name) && ent.is_dir) with
        | none => exact ihr m
        | some inb =>
          dsimp only
          by_cases hs : e.sha ≠ inb.sha
          · rw [if_pos hs, if_pos hs]
            cases hl : pfx.getLast? with
            | none => rfl
            | some lastp =>
              dsimp only
              cases hrc : recordChanges trees fuel m e.sha inb.sha
                  (pfx ++ [lastp ++ e.name ++ "/"]) with
              | none => rfl
              | some m2 => exact ihr m2
          · rw [if_neg hs, if_neg hs]
            exact ihr m
      | false =>
        simp only [recordEntries, he, Bool.false_eq_true, if_false]
        cases hf : b.find? (fun ent => decide (ent.name = e.name) && !ent.is_dir) with
        | none => exact ihr m
        | some inb =>
          dsimp only
          by_cases hs : e.sha ≠ inb.sha
          · rw [if_pos hs, if_pos hs]
            cases hl : pfx.getLast? with
            | none => rfl
            | some lastp =>
              dsimp only
              exact ihr _
          · rw [if_neg hs, if_neg hs]
            exact ihr m
    | false =>
      have hnm : ∀ eb ∈ b, sameKey e eb = false :=
        hk e (List.mem_cons_self e rest) hke
      simp only [List.filter_cons, hke, Bool.false_eq_true, if_false]
      rw [ihr m]
      cases he : e.is_dir with
      | true =>
        have hfn : b.find? (fun ent => decide (ent.name = e.name) && ent.is_dir) = none := by
          rw [List.find?_eq_none]
          intro x hx hpx
          have hsk := hnm x hx
          simp only [Bool.and_eq_true, decide_eq_true_eq] at hpx
          simp [sameKey, hpx.1, hpx.2, he] at hsk
        simp only [recordEntries, he, if_true, hfn]
      | false =>
        have hfn : b.find? (fun ent => decide (ent.name = e.name) && !ent.is_dir) = none := by
          rw [List.find?_eq_none]
          intro x hx hpx
          have hsk := hnm x hx
          simp only [Bool.and_eq_true, decide_eq_true_eq, Bool.not_eq_true'] at hpx
          simp [sameKey, hpx.1, hpx.2, he] at hsk
        simp only [recordEntries, he, Bool.false_eq_true, if_false, hfn]

/-- Claim C2: in every tree diff, entries of the destination tree with no
name-and-kind match in the source tree never affect the counters (removing
them all changes nothing), and entries of the source tree with no
name-and-kind match in the destination tree never affect the counters: only
entries matched by name and kind in both trees can contribute counts. -/
theorem claim_C2_only_matched_entries
    (trees : List (List Nat × GitTree)) (fuel : Nat) (a : List GitTreeEntry)
    (b : GitTree) (pfx : List String) (m : CMap) :
    recordEntries trees fuel a (b.filter (fun eb => a.any (fun ea => sameKey eb ea))) pfx m
      = recordEntries trees fuel a b pfx m
    ∧ recordEntries trees fuel (a.filter (fun ea => b.any (fun eb => sameKey ea eb))) b pfx m
      = recordEntries trees fuel a b pfx m := by
  constructor
  · apply recordEntries_filter_dest
    intro eb hb hex
    obtain ⟨ea, hea, hsk⟩ := hex
    simp only [List.any_eq_true]
    exact ⟨ea, hea, hsk⟩
  · apply recordEntries_filter_src
    intro ea hea hkf eb hb
    simp only [List.any_eq_false] at hkf
    have := hkf eb hb
    cases hsk : sameKey ea eb with
    | true => exact absurd hsk this
    | false => rfl

/-- Claim C1: when the entry loop reaches a file entry matched by name and
file kind whose OID differs, it hands the rest of the loop a counter map in
which the counter of the file's full path and the counter of every directory
on the prefix stack have each grown by one (per occurrence on the stack) and
all other counters are unchanged; concretely, walking child commit `[2]` over
parent `[1]` whose trees differ in exactly the file `/a/b.txt` ends with
counters exactly 1 at `/a/b.txt`, `/a/` and `/` and no other path counted. -/
theorem claim_C1_file_change_counts :
    (∀ (trees : List (List Nat × GitTree)) (fuel : Nat) (e inb : GitTreeEntry)
       (rest : List GitTreeEntry) (b : GitTree) (pfx : List String) (m : CMap)
       (lastp : String),
       e.is_dir = false →
       b.find? (fun ent => decide (ent.name = e.name) && !ent.is_dir) = some inb →
       e.sha ≠ inb.sha →
       pfx.getLast? = some lastp →
       recordEntries trees fuel (e :: rest) b pfx m
         = recordEntries trees fuel rest b pfx
             (countChange (pfx.foldl countChange m) (lastp ++ e.name))
       ∧ ∀ q : String,
           getCount (countChange (pfx.foldl countChange m) (lastp ++ e.name)) q
             = getCount m q + pfx.count q + (if q = lastp ++ e.name then 1 else 0))
    ∧ (walkCommit c1Commits c1Trees 5 [] [] [2]
         = some ([[1], [2]], [("/a/b.txt", 1), ("/a/", 1), ("/", 1)])
       ∧ ∀ q : String, q ≠ "/a/b.txt" → q ≠ "/a/" → q ≠ "/" →
           alistGet [("/a/b.txt", 1), ("/a/", 1), ("/", 1)] q = none) := by
  refine ⟨?_, ?_, ?_⟩
  · intro trees fuel e inb rest b pfx m lastp he hf hs hl
    constructor
    · simp only [recordEntries, he, Bool.false_eq_true, if_false, hf]
      rw [if_pos hs, hl]
    · intro q
      rw [getCount_countChange, getCount_foldl_countChange]
  · simp [walkCommit, walkParents, recordChanges, recordEntries, alistGet, alistInsert,
      countChange, getCount, c1Commits, c1Trees, List.find?]
  · intro q hq1 hq2 hq3
    have d1 : decide (("/a/b.txt" : String) = q) = false :=
      decide_eq_false (fun h => hq1 h.symm)
    have d2 : decide (("/a/" : String) = q) = false :=
      decide_eq_false (fun h => hq2 h.symm)
    have d3 : decide (("/" : String) = q) = false :=
      decide_eq_false (fun h => hq3 h.symm)
    simp [alistGet, List.find?, d1, d2, d3]

theorem claim_C1_witness :
    (recordEntries [] 0 [⟨false, "f", [1]⟩] [⟨false, "f", [2]⟩] ["/"] []
       = recordEntries [] 0 [] [⟨false, "f", [2]⟩] ["/"]
           (countChange ((["/"] : List String).foldl countChange []) ("/" ++ "f")))
    ∧ getCount (countChange ((["/"] : List String).foldl countChange []) ("/" ++ "f")) "/f"
        = getCount ([] : CMap) "/f" + (["/"] : List String).count "/f"
          + (if "/f" = "/" ++ "f" then 1 else 0)
    ∧ alistGet [("/a/b.txt", 1), ("/a/", 1), ("/", 1)] "/zzz" = none := by
  have h1 := claim_C1_file_change_counts.1 [] 0 ⟨false, "f", [1]⟩ ⟨false, "f", [2]⟩ []
    [⟨false, "f", [2]⟩] ["/"] [] "/" rfl (by decide) (by decide) rfl
  exact ⟨h1.1, h1.2 "/f", claim_C1_file_change_counts.2.2 "/zzz" (by decide) (by decide)
    (by decide)⟩

theorem buildChildren_inv (trees : List (List Nat × GitTree)) (m : CMap) (fuel : Nat)
    (hP : ∀ (path nm : String) (sha : List Nat) (t : TreeNode),
      buildTreeNode trees m fuel path nm sha = some t →
      t.type = "directory" ∧ filesLeaves t = true) :
    ∀ (path : String) (es : List GitTreeEntry) (cs : List TreeNode),
      buildChildren trees m fuel path es = some cs → filesLeavesAll cs = true := by
  intro path es
  induction es with
  | nil =>
    intro cs h
    cases fuel with
    | zero =>
      simp only [buildChildren, Option.some.injEq] at h
      subst h
      rfl
    | succ f =>
      simp only [buildChildren, Option.some.injEq] at h
      subst h
      rfl
  | cons e rest ih =>
    intro cs h
    cases hd : e.is_dir with
    | true =>
      cases hb : buildTreeNode trees m fuel (path ++ e.name ++ "/") e.name e.sha with
      | none => simp [buildChildren, hd, hb] at h
      | some node =>
        cases hbc : buildChildren trees m fuel path rest with
        | none => simp [buildChildren, hd, hb, hbc] at h
        | some cs2 =>
          have hcs : node :: cs2 = cs := by
            simpa [buildChildren, hd, hb, hbc] using h
          have hnode := hP _ e.name e.sha node hb
          rw [← hcs]
          simp [filesLeavesAll, hnode.2, ih cs2 hbc]
    | false =>
      cases hbc : buildChildren trees m fuel path rest with
      | none => simp [buildChildren, hd, hbc] at h
      | some cs2 =>
        have hcs : TreeNode.mk e.name "file" (getCount m (path ++ e.name)) 666 [] :: cs2
            = cs := by
          simpa [buildChildren, hd, hbc] using h
        rw [← hcs]
        simp [filesLeavesAll, filesLeaves, ih cs2 hbc]

theorem buildTreeNode_inv :
    ∀ (fuel : Nat) (trees : List (List Nat × GitTree)) (m : CMap) (path nm : String)
      (sha : List Nat) (t : TreeNode),
      buildTreeNode trees m fuel path nm sha = some t →
      t.type = "directory" ∧ filesLeaves t = true := by
  intro fuel
  induction fuel with
  | zero =>
    intro trees m path nm sha t h
    simp [buildTreeNode] at h
  | succ f ihf =>
    intro trees m path nm sha t h
    cases halist : alistGet trees sha with
    | none => simp [buildTreeNode, halist] at h
    | some tree =>
      cases hc : buildChildren trees m f path tree with
      | none => simp [buildTreeNode, halist, hc] at h
      | some cs =>
        have ht : TreeNode.mk nm "directory" (getCount m path) 666 cs = t := by
          simpa [buildTreeNode, halist, hc] using h
        have hcs := buildChildren_inv trees m f (fun p n s t2 => ihf trees m p n s t2)
          path tree cs hc
        rw [← ht]
        simp [TreeNode.type, filesLeaves, hcs]

/-- Claim C10: every node the output builder produces is a `"directory"` node
at its root (in particular every node built by recursing into a directory
entry), and within any built tree every node tagged `"file"` is a leaf with
no children. -/
theorem claim_C10_files_are_leaves (trees : List (List Nat × GitTree)) (m : CMap)
    (fuel : Nat) (path nm : String) (sha : List Nat) (t : TreeNode)
    (h : buildTreeNode trees m fuel path nm sha = some t) :
    t.type = "directory" ∧ filesLeaves t = true :=
  buildTreeNode_inv fuel trees m path nm sha t h

theorem claim_C10_witness :
    TreeNode.type (.mk "" "directory" 0 666 [.mk "f.txt" "file" 0 666 []]) = "directory"
    ∧ filesLeaves (.mk "" "directory" 0 666 [.mk "f.txt" "file" 0 666 []]) = true :=
  claim_C10_files_are_leaves c10Trees [] 2 "/" "" [1]
    (.mk "" "directory" 0 666 [.mk "f.txt" "file" 0 666 []])
    (by simp [buildTreeNode, buildChildren, alistGet, getCount, c10Trees, List.find?])

/-- Claim C7: pack decoding succeeds only when the number of records scanned
by the record loop equals the object count declared in the header, and the
concrete pack declaring 5 objects but containing 4 records fails with the
count-mismatch (malformed header) error at end of stream. -/
theorem claim_C7_count_check :
    (∀ (sha1 : List Nat → List Nat) (inflate : List Nat → Option (List Nat × Nat))
       (fuel : Nat) (data : List Nat) (r : ParsePackResult),
       parsePack sha1 inflate fuel data = .ok r →
       ∃ objs, scanRecords sha1 inflate data fuel 12 0 []
         = .ok (be32 (List.take 4 (List.drop 8 data)), objs))
    ∧ parsePack sha1c inflatec 100 c7Pack = .error .countMismatch := by
  constructor
  · intro sha1 inflate fuel data r h
    unfold parsePack at h
    by_cases h12 : data.length < 12
    · rw [if_pos h12] at h
      exact absurd h (by simp)
    · rw [if_neg h12] at h
      by_cases hmg : data.take 4 = [80, 65, 67, 75]
      · have hb : (!decide (data.take 4 = [80, 65, 67, 75])) = false := by simp [hmg]
        simp only [hb, Bool.false_eq_true, if_false] at h
        cases hscan : scanRecords sha1 inflate data fuel 12 0 [] with
        | error e =>
          rw [hscan] at h
          exact absurd h (by simp)
        | ok p =>
          obtain ⟨count, objects⟩ := p
          rw [hscan] at h
          dsimp only at h
          by_cases hc : count = be32 (List.take 4 (List.drop 8 data))
          · exact ⟨objects, by rw [hc]⟩
          · rw [if_neg hc] at h
            exact absurd h (by simp)
      · have hb : (!decide (data.take 4 = [80, 65, 67, 75])) = true := by simp [hmg]
        simp only [hb, if_true] at h
        exact absurd h (by simp)
  · decide

theorem claim_C7_witness :
    ∃ objs, scanRecords sha1c inflatec c7aPack 100 12 0 [] = .ok (1, objs) :=
  claim_C7_count_check.1 sha1c inflatec 100 c7aPack ⟨[], []⟩ (by decide)

/-- Claim C8: a reference-delta record whose base OID is absent from the
object table does not fail: the record is scanned successfully, nothing is
inserted (the table is returned unchanged), and the cursor advances past the
whole record (header, 20-byte base OID, compressed payload and checksum), so
decoding of the remaining records continues; concretely, a pack whose first
record is such a delta and whose second is a blob decodes fully, with only
the blob in the table. -/
theorem claim_C8_missing_base_skipped :
    (∀ (sha1 : List Nat → List Nat) (inflate : List Nat → Option (List Nat × Nat))
       (objects : List (List Nat × PackObject)) (b extra c : Nat)
       (rest rem1 dec : List Nat),
       b * 2 % 256 / 32 = 7 →
       sizeCont b rest 4 = some (extra, rem1) →
       20 ≤ rem1.length →
       alistGet objects (rem1.take 20) = none →
       0 < b * 16 % 256 / 16 + extra →
       inflate (rem1.drop 20) = some (dec, c) →
       dec.length = b * 16 % 256 / 16 + extra →
       parseRecord sha1 inflate objects (b :: rest)
         = .ok (objects, (b :: rest).length - rem1.length + 20 + (c + 4)))
    ∧ (parsePack sha1c inflatec 100 c8Pack = .ok ⟨[], []⟩
       ∧ scanRecords sha1c inflatec c8Pack 100 12 0 []
         = .ok (2, [(List.replicate 20 7, ⟨.ObjBlob, []⟩)])) := by
  refine ⟨?_, by decide, by decide⟩
  intro sha1 inflate objects b extra c rest rem1 dec hty hsz h20 hbase hlen hinf hdec
  simp only [parseRecord, hty, hsz]
  have hnew : PackObjectType.new 7 = some .ObjRefDelta := rfl
  rw [hnew]
  dsimp only
  rw [if_neg (by decide), if_pos rfl, if_neg (by omega), if_pos hlen, hinf]
  dsimp only
  rw [if_pos hdec.symm]
  simp only [finishRecord, hbase, insertObj, PackObjectType.git_name]

theorem claim_C8_witness :
    parseRecord sha1c inflatec [] (113 :: (List.replicate 20 1 ++ [9])) = .ok ([], 26) := by
  have h := claim_C8_missing_base_skipped.1 sha1c inflatec [] 113 0 1
    (List.replicate 20 1 ++ [9]) (List.replicate 20 1 ++ [9]) [9]
    (by decide) (by decide) (by decide) rfl (by decide) (by decide) (by decide)
  simpa using h

theorem git_name_types (t : PackObjectType) (nm : String) (h : t.git_name = some nm) :
    t = .ObjCommit ∨ t = .ObjTree ∨ t = .ObjBlob ∨ t = .ObjTag := by
  cases t with
  | ObjCommit => exact Or.inl rfl
  | ObjTree => exact Or.inr (Or.inl rfl)
  | ObjBlob => exact Or.inr (Or.inr (Or.inl rfl))
  | ObjTag => exact Or.inr (Or.inr (Or.inr rfl))
  | ObjOfsDelta => simp [PackObjectType.git_name] at h
  | ObjRefDelta => simp [PackObjectType.git_name] at h

theorem alistGet_mem {α β : Type} [DecidableEq α] (m : List (α × β)) (k : α) (v : β)
    (h : alistGet m k = some v) : ∃ kk, (kk, v) ∈ m := by
  unfold alistGet at h
  cases hf : m.find? (fun p => decide (p.1 = k)) with
  | none => rw [hf] at h; simp at h
  | some p =>
    rw [hf] at h
    simp only [Option.map_some', Option.some.injEq] at h
    have hm := List.mem_of_find?_eq_some hf
    obtain ⟨a, bv⟩ := p
    simp only at h
    subst h
    exact ⟨a, hm⟩

theorem insertObj_types (sha1 : List Nat → List Nat) (objects : List (List Nat × PackObject))
    (t : PackObjectType) (dec : List Nat) (consumed : Nat)
    (objs2 : List (List Nat × PackObject)) (c2 : Nat)
    (h : insertObj sha1 objects t dec consumed = .ok (objs2, c2))
    (hinv : ∀ so ∈ objects, so.2.obj_type = .ObjCommit ∨ so.2.obj_type = .ObjTree
      ∨ so.2.obj_type = .ObjBlob ∨ so.2.obj_type = .ObjTag) :
    ∀ so ∈ objs2, so.2.obj_type = .ObjCommit ∨ so.2.obj_type = .ObjTree
      ∨ so.2.obj_type = .ObjBlob ∨ so.2.obj_type = .ObjTag := by
  unfold insertObj at h
  cases hg : t.git_name with
  | none =>
    rw [hg] at h
    simp only [Except.ok.injEq, Prod.mk.injEq] at h
    rw [← h.1]
    exact hinv
  | some nm =>
    rw [hg] at h
    simp only [Except.ok.injEq, Prod.mk.injEq] at h
    have ht := git_name_types t nm hg
    intro so hso
    rw [← h.1] at hso
    unfold alistInsert at hso
    rcases List.mem_cons.mp hso with hso | hso
    · rw [hso]
      exact ht
    · exact hinv so (List.mem_of_mem_filter hso)

theorem finishRecord_types (sha1 : List Nat → List Nat)
    (objects : List (List Nat × PackObject)) (t0 : PackObjectType)
    (deltaRef : Option (List Nat)) (dec : List Nat) (consumed : Nat)
    (objs2 : List (List Nat × PackObject)) (c2 : Nat)
    (h : finishRecord sha1 objects t0 deltaRef dec consumed = .ok (objs2, c2))
    (hinv : ∀ so ∈ objects, so.2.obj_type = .ObjCommit ∨ so.2.obj_type = .ObjTree
      ∨ so.2.obj_type = .ObjBlob ∨ so.2.obj_type = .ObjTag) :
    ∀ so ∈ objs2, so.2.obj_type = .ObjCommit ∨ so.2.obj_type = .ObjTree
      ∨ so.2.obj_type = .ObjBlob ∨ so.2.obj_type = .ObjTag := by
  unfold finishRecord at h
  cases deltaRef with
  | none =>
    dsimp only at h
    exact insertObj_types sha1 objects t0 dec consumed objs2 c2 h hinv
  | some dr =>
    dsimp only at h
    cases hget : alistGet objects dr with
    | none =>
      rw [hget] at h
      exact insertObj_types sha1 objects t0 dec consumed objs2 c2 h hinv
    | some base =>
      rw [hget] at h
      dsimp only at h
      cases had : apply_delta base.data dec with
      | none =>
        rw [had] at h
        exact absurd h (by simp)
      | some und =>
        rw [had] at h
        dsimp only at h
        exact insertObj_types sha1 objects base.obj_type und consumed objs2 c2 h hinv

theorem parseRecord_types (sha1 : List Nat → List Nat)
    (inflate : List Nat → Option (List Nat × Nat)) (objects : List (List Nat × PackObject))
    (rem : List Nat) (objs2 : List (List Nat × PackObject)) (c2 : Nat)
    (h : parseRecord sha1 inflate objects rem = .ok (objs2, c2))
    (hinv : ∀ so ∈ objects, so.2.obj_type = .ObjCommit ∨ so.2.obj_type = .ObjTree
      ∨ so.2.obj_type = .ObjBlob ∨ so.2.obj_type = .ObjTag) :
    ∀ so ∈ objs2, so.2.obj_type = .ObjCommit ∨ so.2.obj_type = .ObjTree
      ∨ so.2.obj_type = .ObjBlob ∨ so.2.obj_type = .ObjTag := by
  unfold parseRecord at h
  cases rem with
  | nil => exact absurd h (by simp)
  | cons b rest =>
    dsimp only at h
    cases hn : PackObjectType.new (b * 2 % 256 / 32) with
    | none => rw [hn] at h; exact absurd h (by simp)
    | some t0 =>
      rw [hn] at h
      dsimp only at h
      cases hsz : sizeCont b rest 4 with
      | none => rw [hsz] at h; exact absurd h (by simp)
      | some p =>
        obtain ⟨extra, rem1⟩ := p
        rw [hsz] at h
        dsimp only at h
        by_cases hofs : t0 = .ObjOfsDelta
        · rw [if_pos hofs] at h
          exact absurd h (by simp)
        · rw [if_neg hofs] at h
          by_cases href : t0 = .ObjRefDelta
          · rw [if_pos href] at h
            by_cases h20 : rem1.length < 20
            · rw [if_pos h20] at h
              exact absurd h (by simp)
            · rw [if_neg h20] at h
              by_cases hlen : 0 < b * 16 % 256 / 16 + extra
              · rw [if_pos hlen] at h
                cases hin : inflate (List.drop 20 rem1) with
                | none => rw [hin] at h; exact absurd h (by simp)
                | some q =>
                  obtain ⟨dec, c⟩ := q
                  rw [hin] at h
                  dsimp only at h
                  by_cases hd : b * 16 % 256 / 16 + extra = dec.length
                  · rw [if_pos hd] at h
                    exact finishRecord_types _ _ _ _ _ _ _ _ h hinv
                  · rw [if_neg hd] at h
                    exact absurd h (by simp)
              · rw [if_neg hlen] at h
                exact finishRecord_types _ _ _ _ _ _ _ _ h hinv
          · rw [if_neg href] at h
            by_cases hlen : 0 < b * 16 % 256 / 16 + extra
            · rw [if_pos hlen] at h
              cases hin : inflate rem1 with
              | none => rw [hin] at h; exact absurd h (by simp)
              | some q =>
                obtain ⟨dec, c⟩ := q
                rw [hin] at h
                dsimp only at h
                by_cases hd : b * 16 % 256 / 16 + extra = dec.length
                · rw [if_pos hd] at h
                  exact finishRecord_types _ _ _ _ _ _ _ _ h hinv
                · rw [if_neg hd] at h
                  exact absurd h (by simp)
            · rw [if_neg hlen] at h
              exact finishRecord_types _ _ _ _ _ _ _ _ h hinv

theorem scanRecords_types (sha1 : List Nat → List Nat)
    (inflate : List Nat → Option (List Nat × Nat)) (data : List Nat) :
    ∀ (fuel p count : Nat) (objects : List (List Nat × PackObject))
      (c : Nat) (objs2 : List (List Nat × PackObject)),
      (∀ so ∈ objects, so.2.obj_type = .ObjCommit ∨ so.2.obj_type = .ObjTree
        ∨ so.2.obj_type = .ObjBlob ∨ so.2.obj_type = .ObjTag) →
      scanRecords sha1 inflate data fuel p count objects = .ok (c, objs2) →
      ∀ so ∈ objs2, so.2.obj_type = .ObjCommit ∨ so.2.obj_type = .ObjTree
        ∨ so.2.obj_type = .ObjBlob ∨ so.2.obj_type = .ObjTag := by
  intro fuel
  induction fuel with
  | zero =>
    intro p count objects c objs2 hinv h
    exact absurd h (by simp [scanRecords])
  | succ f ih =>
    intro p count objects c objs2 hinv h
    simp only [scanRecords] at h
    by_cases hp : p < data.length - 20
    · rw [if_pos hp] at h
      cases hr : parseRecord sha1 inflate objects (data.drop p) with
      | error e => rw [hr] at h; exact absurd h (by simp)
      | ok q =>
        obtain ⟨objects2, consumed⟩ := q
        rw [hr] at h
        exact ih (p + consumed) (count + 1) objects2 c objs2
          (parseRecord_types sha1 inflate objects (data.drop p) objects2 consumed hr hinv) h
    · rw [if_neg hp] at h
      simp only [Except.ok.injEq, Prod.mk.injEq] at h
      rw [← h.2]
      exact hinv

/-- Claim C9: every object in the table produced by the record-scanning loop
of `parse_pack` has one of the four named git types (commit, tree, blob or
tag): an object is inserted only when its possibly base-inherited type has a
git name, so no reference-delta-typed object is ever stored. -/
theorem claim_C9_table_types (sha1 : List Nat → List Nat)
    (inflate : List Nat → Option (List Nat × Nat)) (data : List Nat)
    (fuel c : Nat) (objs : List (List Nat × PackObject))
    (h : scanRecords sha1 inflate data fuel 12 0 [] = .ok (c, objs)) :
    ∀ so ∈ objs, so.2.obj_type = .ObjCommit ∨ so.2.obj_type = .ObjTree
      ∨ so.2.obj_type = .ObjBlob ∨ so.2.obj_type = .ObjTag :=
  scanRecords_types sha1 inflate data fuel 12 0 [] c objs (by simp) h

theorem claim_C9_witness :
    (PackObject.mk .ObjBlob []).obj_type = .ObjCommit
      ∨ (PackObject.mk .ObjBlob []).obj_type = .ObjTree
      ∨ (PackObject.mk .ObjBlob []).obj_type = .ObjBlob
      ∨ (PackObject.mk .ObjBlob []).obj_type = .ObjTag :=
  claim_C9_table_types sha1c inflatec c8Pack 100 2
    [(List.replicate 20 7, ⟨.ObjBlob, []⟩)] (by decide)
    (List.replicate 20 7, ⟨.ObjBlob, []⟩) (by simp)
